import Mathlib

/-!
Verification development for the PaperDigest repository.

The repository fetches a document from a URL, extracts its text, sends it
to a hosted language model, and parses the model's reply into a structured
summary.  Two source files are embedded here:

* `worker.py` — the queued/worker shape: a `Job` table, a polling worker
  (`process_pending_job`, `main`) and a reply parser with a title field;
* `main.py`  — the synchronous cache variant: `get_text_from_url`,
  `get_summary_from_ai` (no title field) and the cached `analyze_paper`
  endpoint.

Strings are modelled as `List Char`.  Python's `str.split(sep)` (with a
non-empty separator), `str.strip()`, indexing `[i]`, and the `in`
substring test are given executable models (`splitOn`, `pyStrip`,
`occursIn`, `isPre`) and the parser / worker / cache code is translated
line by line on top of them.
-/

/-- `isPre pat s` : `pat` is a prefix of `s` (Python `s.startswith(pat)`). -/
def isPre : List Char → List Char → Bool
  | [], _ => true
  | _ :: _, [] => false
  | a :: as, b :: bs => a == b && isPre as bs

/-- `occursIn pat s` : `pat` occurs as a contiguous substring of `s`
(Python `pat in s`). -/
def occursIn (pat : List Char) : List Char → Bool
  | [] => isPre pat []
  | c :: rest => isPre pat (c :: rest) || occursIn pat rest

/-- Worker for `splitOn`.  The counter `k` is the number of characters of a
just-matched separator still to be skipped; matching is never attempted
inside a separator occurrence, which reproduces Python's left-to-right,
non-overlapping `str.split`. -/
def splitGo (sep : List Char) : Nat → List Char → List (List Char)
  | _ + 1, [] => [[]]
  | k + 1, _ :: rest => splitGo sep k rest
  | 0, [] => [[]]
  | 0, c :: rest =>
    if isPre sep (c :: rest) then
      [] :: splitGo sep (sep.length - 1) rest
    else
      match splitGo sep 0 rest with
      | [] => [[c]]
      | h :: t => (c :: h) :: t

/-- Python `s.split(sep)` for a non-empty separator `sep`. -/
def splitOn (sep s : List Char) : List (List Char) := splitGo sep 0 s

/-- The whitespace characters stripped by Python `str.strip()`
(ASCII subset: space, tab, newline, carriage return, vertical tab,
form feed). -/
def isSpaceB (c : Char) : Bool :=
  c == ' ' || c == '\t' || c == '\n' || c == '\r' ||
  c == Char.ofNat 11 || c == Char.ofNat 12

/-- Python `s.strip()`. -/
def pyStrip (s : List Char) : List Char :=
  ((s.dropWhile isSpaceB).reverse.dropWhile isSpaceB).reverse

-- The literal markers used by both parsers.
def oTitle : List Char := "<title>".toList
def cTitle : List Char := "</title>".toList
def oSum : List Char := "<summary>".toList
def cSum : List Char := "</summary>".toList
def oMeth : List Char := "<methodology>".toList
def cMeth : List Char := "</methodology>".toList
def oTake : List Char := "<takeaways>".toList
def cTake : List Char := "</takeaways>".toList
def oItem : List Char := "<item>".toList
def cItem : List Char := "</item>".toList

/-- `message.split(sep)[1]`: `some` of the second fragment, `none` when the
subscript `[1]` would raise `IndexError` (i.e. `sep` does not occur). -/
def extractAfter (sep msg : List Char) : Option (List Char) :=
  match splitOn sep msg with
  | _ :: seg :: _ => some seg
  | _ => none

/-- `seg.split(sep)[0]`: the fragment before the first occurrence of `sep`
(the whole of `seg` when `sep` does not occur); `[0]` never raises. -/
def before (sep seg : List Char) : List Char :=
  (splitOn sep seg).headD []

/-- The dictionary returned by `worker.py`'s `get_summary_from_ai`
(title, summary, takeaways list, methodology). -/
structure AIResult where
  title : List Char
  summary : List Char
  takeaways : List (List Char)
  methodology : List Char
deriving DecidableEq

/-- The dictionary returned by `main.py`'s `get_summary_from_ai`
(no title field). -/
structure MainDict where
  summary : List Char
  takeaways : List (List Char)
  methodology : List Char
deriving DecidableEq

/-- The reply-parsing portion of `worker.py`'s `get_summary_from_ai`
(lines 80–85), as a function of the provider's reply `message`:

    title = message.split("<title>")[1].split("</title>")[0].strip()
    summary = message.split("<summary>")[1].split("</summary>")[0].strip()
    methodology = message.split("<methodology>")[1].split("</methodology>")[0].strip()
    takeaways_block = message.split("<takeaways>")[1].split("</takeaways>")[0]
    takeaways = [item.split("</item>")[0].strip() for item in takeaways_block.split("<item>")[1:]]

`none` models the `IndexError` a missing opening marker raises. -/
def parseWorker (message : List Char) : Option AIResult :=
  match extractAfter oTitle message, extractAfter oSum message,
        extractAfter oMeth message, extractAfter oTake message with
  | some segT, some segS, some segM, some segK =>
    some { title := pyStrip (before cTitle segT),
           summary := pyStrip (before cSum segS),
           methodology := pyStrip (before cMeth segM),
           takeaways :=
             ((splitOn oItem (before cTake segK)).tail).map
               (fun it => pyStrip (before cItem it)) }
  | _, _, _, _ => none

/-- The reply-parsing portion of `main.py`'s `get_summary_from_ai`
(lines 109–113); identical to the worker's parser except there is no
title field. -/
def parseMain (message : List Char) : Option MainDict :=
  match extractAfter oSum message, extractAfter oMeth message,
        extractAfter oTake message with
  | some segS, some segM, some segK =>
    some { summary := pyStrip (before cSum segS),
           methodology := pyStrip (before cMeth segM),
           takeaways :=
             ((splitOn oItem (before cTake segK)).tail).map
               (fun it => pyStrip (before cItem it)) }
  | _, _, _ => none

/-!
### Token documents

To state the parser's behaviour on every well-formed reply we describe a
reply as a list of tokens: literal marker tags and free-text pieces that
contain no tag-opening character.  A reply built this way contains each
marker exactly at its token positions, which pins down the "first
occurrence" the split-based parser keys on.
-/

/-- One token of a provider reply: a free-text piece or a literal tag. -/
inductive Tok where
  | piece : List Char → Tok
  | tag : List Char → Tok
deriving DecidableEq

/-- Render a token list back into the flat reply string. -/
def rendT : List Tok → List Char
  | [] => []
  | Tok.piece s :: ts => s ++ rendT ts
  | Tok.tag m :: ts => m ++ rendT ts

/-- A well-formed tag: starts with the only occurrence of the character
that opens every marker. -/
def goodTag : List Char → Bool
  | [] => false
  | c :: rest => c == '<' && !(rest.contains '<')

/-- Prepend `x` onto the first fragment of a split result. -/
def consAll (x : List Char) : List (List Char) → List (List Char)
  | [] => [x]
  | h :: t => (x ++ h) :: t

/-- What `splitOn sep` computes on a rendered token list: a new fragment
starts exactly at each `tag sep` token. -/
def tokSplit (sep : List Char) : List Tok → List (List Char)
  | [] => [[]]
  | Tok.piece s :: ts => consAll s (tokSplit sep ts)
  | Tok.tag m :: ts =>
    if m = sep then [] :: tokSplit sep ts else consAll m (tokSplit sep ts)

/-- The tags appearing in a token list. -/
def tagsOf : List Tok → List (List Char)
  | [] => []
  | Tok.piece _ :: ts => tagsOf ts
  | Tok.tag m :: ts => m :: tagsOf ts

/-- The free-text pieces appearing in a token list. -/
def piecesOf : List Tok → List (List Char)
  | [] => []
  | Tok.piece s :: ts => s :: piecesOf ts
  | Tok.tag _ :: ts => piecesOf ts

/-- The ten literal markers of the prompt's reply format. -/
def markers : List (List Char) :=
  [oTitle, cTitle, oSum, cSum, oMeth, cMeth, oTake, cTake, oItem, cItem]

/-- A token is well formed when free text carries no tag-opening character
and every tag is one of the ten literal markers. -/
def okTok : Tok → Prop
  | Tok.piece s => '<' ∉ s
  | Tok.tag m => m ∈ markers

/-- All tokens of the document are well formed. -/
def wfT (ts : List Tok) : Prop := ∀ tok ∈ ts, okTok tok

/-- Token list of the takeaways block body: for each list entry `(i, g)`,
an `<item>` tag, the item text `i`, a `</item>` tag, then inter-item
glue `g`. -/
def itemToks : List (List Char × List Char) → List Tok
  | [] => []
  | (i, g) :: more =>
    Tok.tag oItem :: Tok.piece i :: Tok.tag cItem :: Tok.piece g :: itemToks more

/-- Token list of a well-formed reply for the worker's parser: glue text,
the four marker pairs in document order, and `items` inside the
takeaways block. -/
def workerToks (pre t g1 s g2 m g3 i0 post : List Char)
    (items : List (List Char × List Char)) : List Tok :=
  [Tok.piece pre, Tok.tag oTitle, Tok.piece t, Tok.tag cTitle, Tok.piece g1,
   Tok.tag oSum, Tok.piece s, Tok.tag cSum, Tok.piece g2,
   Tok.tag oMeth, Tok.piece m, Tok.tag cMeth, Tok.piece g3,
   Tok.tag oTake, Tok.piece i0] ++ itemToks items ++
  [Tok.tag cTake, Tok.piece post]

/-- A well-formed reply for the worker's parser, as a flat string. -/
def rendWorker (pre t g1 s g2 m g3 i0 post : List Char)
    (items : List (List Char × List Char)) : List Char :=
  rendT (workerToks pre t g1 s g2 m g3 i0 post items)

/-- Token list of a well-formed reply for `main.py`'s parser (no title
section). -/
def mainToks (pre s g2 m g3 i0 post : List Char)
    (items : List (List Char × List Char)) : List Tok :=
  [Tok.piece pre,
   Tok.tag oSum, Tok.piece s, Tok.tag cSum, Tok.piece g2,
   Tok.tag oMeth, Tok.piece m, Tok.tag cMeth, Tok.piece g3,
   Tok.tag oTake, Tok.piece i0] ++ itemToks items ++
  [Tok.tag cTake, Tok.piece post]

/-- A well-formed reply for `main.py`'s parser, as a flat string. -/
def rendMain (pre s g2 m g3 i0 post : List Char)
    (items : List (List Char × List Char)) : List Char :=
  rendT (mainToks pre s g2 m g3 i0 post items)

/-!
### The job table and the worker (`worker.py`)
-/

/-- The `Job` SQLModel row (`worker.py` lines 15–23).  Content fields and
the error message are `Option`s, mirroring the nullable columns. -/
structure Job where
  id : Nat
  url : List Char
  status : List Char
  title : Option (List Char) := none
  summary : Option (List Char) := none
  takeaways : Option (List Char) := none
  methodology : Option (List Char) := none
  error_message : Option (List Char) := none
deriving DecidableEq

def sPENDING : List Char := "PENDING".toList
def sPROCESSING : List Char := "PROCESSING".toList
def sCOMPLETED : List Char := "COMPLETED".toList
def sFAILED : List Char := "FAILED".toList

/-- `"|||".join(takeaways)` (`worker.py` line 110). -/
def joinBars : List (List Char) → List Char
  | [] => []
  | [x] => x
  | x :: xs => x ++ "|||".toList ++ joinBars xs

/-- Modelled from the spec: the Job Submitter (its web handler is in a
queue-variant `main.py` that is not under `src/`).  "Inserts a new Job
with status PENDING, all content fields empty, and returns the stored Job
including its assigned identity." -/
def submitJob (id : Nat) (url : List Char) : Job :=
  { id := id, url := url, status := sPENDING }

/-- The claim step of `process_pending_job` (lines 97–100): set status to
PROCESSING and commit. -/
def claimJob (j : Job) : Job := { j with status := sPROCESSING }

/-- The try/except body of `process_pending_job` (lines 102–114) applied to
the claimed job.  `outcome` is the combined result of `get_text_from_url`
and `get_summary_from_ai`: `Except.ok` carries the parsed dictionary,
`Except.error` the message of whatever exception was raised. -/
def finishJob (j : Job) (outcome : Except (List Char) AIResult) : Job :=
  match outcome with
  | Except.ok r =>
    { j with status := sCOMPLETED, title := some r.title,
             summary := some r.summary, methodology := some r.methodology,
             takeaways := some (joinBars r.takeaways) }
  | Except.error e =>
    { j with status := sFAILED, error_message := some e }

/-- `select(Job).where(Job.status == "PENDING")).first()` (line 91):
the first PENDING row in table order. -/
def findPending (store : List Job) : Option Job :=
  store.find? (fun j => j.status == sPENDING)

/-- A committed row update: replace the row with the job's primary key. -/
def updateJob (store : List Job) (j : Job) : List Job :=
  store.map (fun x => if x.id == j.id then j else x)

/-- One call of `process_pending_job` (lines 89–118), exposing both
committed store states: after the PROCESSING commit (line 99) and after
the terminal commit (line 117).  `env` maps a job's URL to the outcome of
extraction + summarization for it.  When no PENDING job exists the store
is unchanged. -/
def processPass (env : List Char → Except (List Char) AIResult)
    (store : List Job) : List Job × List Job :=
  match findPending store with
  | none => (store, store)
  | some j =>
    let j1 := claimJob j
    let s1 := updateJob store j1
    (s1, updateJob s1 (finishJob j1 (env j.url)))

/-- The store after one full `process_pending_job` call. -/
def processPendingJob (env : List Char → Except (List Char) AIResult)
    (store : List Job) : List Job :=
  (processPass env store).2

/-- `n` iterations of the worker loop (`main`, lines 121–125; the sleep is
irrelevant to the store). -/
def workerRun (env : List Char → Except (List Char) AIResult) :
    Nat → List Job → List Job
  | 0, store => store
  | n + 1, store => workerRun env n (processPendingJob env store)

/-- Well-formed store: primary keys are unique. -/
def wfStore (store : List Job) : Prop := (store.map Job.id).Nodup

/-- The three-way exclusive Job invariant of the spec: COMPLETED with all
content fields populated, or FAILED with an error message, or
PENDING/PROCESSING with all content fields empty. -/
def contentFull (j : Job) : Prop :=
  j.title ≠ none ∧ j.summary ≠ none ∧ j.takeaways ≠ none ∧ j.methodology ≠ none

def contentEmpty (j : Job) : Prop :=
  j.title = none ∧ j.summary = none ∧ j.takeaways = none ∧ j.methodology = none

def invCompleted (j : Job) : Prop := j.status = sCOMPLETED ∧ contentFull j

def invFailed (j : Job) : Prop := j.status = sFAILED ∧ j.error_message ≠ none

def invWaiting (j : Job) : Prop :=
  (j.status = sPENDING ∨ j.status = sPROCESSING) ∧ contentEmpty j

/-- Exactly one of the three invariant cases holds. -/
def exactlyOneInv (j : Job) : Prop :=
  (invCompleted j ∧ ¬ invFailed j ∧ ¬ invWaiting j) ∨
  (¬ invCompleted j ∧ invFailed j ∧ ¬ invWaiting j) ∨
  (¬ invCompleted j ∧ ¬ invFailed j ∧ invWaiting j)

/-- The status transitions the spec allows within one job's lifetime
(reflexivity stands for "unchanged"). -/
def allowedStep (a b : List Char) : Prop :=
  a = b ∨ (a = sPENDING ∧ b = sPROCESSING) ∨
  (a = sPROCESSING ∧ (b = sCOMPLETED ∨ b = sFAILED))

/-!
### Two concurrent workers, step by step (`process_pending_job`'s claim)

`process_pending_job` claims a job in two separate store operations: the
SELECT of the first PENDING row (line 91) and the committed UPDATE that
sets its status to PROCESSING (lines 97–99).  The UPDATE is keyed on the
primary key alone — nothing re-checks that the row is still PENDING.  To
examine the claim step under two concurrent worker processes we interleave
exactly these two store operations.
-/

/-- The SELECT of the claim step: the id of the first PENDING row. -/
def selectStep (store : List Job) : Option Nat :=
  (findPending store).map Job.id

/-- The committed UPDATE of the claim step: set the row with primary key
`i` to PROCESSING, unconditionally. -/
def claimWriteStep (store : List Job) (i : Nat) : List Job :=
  store.map (fun x => if x.id == i then { x with status := sPROCESSING } else x)

/-- Local state of one worker inside `process_pending_job`: a program
counter (0 = about to SELECT, 1 = about to UPDATE, 2 = claim finished)
and the id it selected. -/
structure WSt where
  pc : Nat
  claimed : Option Nat
deriving DecidableEq

/-- One atomic store operation of one worker's claim step. -/
def wStep (store : List Job) (w : WSt) : List Job × WSt :=
  match w.pc, w.claimed with
  | 0, _ => (store, { pc := 1, claimed := selectStep store })
  | 1, some i => (claimWriteStep store i, { pc := 2, claimed := some i })
  | 1, none => (store, { pc := 2, claimed := none })
  | _, _ => (store, w)

/-- The shared store plus two concurrent workers. -/
structure SysSt where
  store : List Job
  w1 : WSt
  w2 : WSt
deriving DecidableEq

/-- Run one atomic operation of worker 1 (`true`) or worker 2 (`false`). -/
def schedStep (s : SysSt) (b : Bool) : SysSt :=
  if b then
    let p := wStep s.store s.w1
    { store := p.1, w1 := p.2, w2 := s.w2 }
  else
    let p := wStep s.store s.w2
    { store := p.1, w1 := s.w1, w2 := p.2 }

/-- Run a whole interleaving schedule. -/
def runSched (s : SysSt) : List Bool → SysSt
  | [] => s
  | b :: bs => runSched (schedStep s b) bs

/-- Initial system state: one PENDING job with id 1, both workers at the
start of their claim step. -/
def sys0 : SysSt :=
  { store := [submitJob 1 "u".toList],
    w1 := { pc := 0, claimed := none },
    w2 := { pc := 0, claimed := none } }

/-!
### The fetch/extract stage (`get_text_from_url`, both shapes)
-/

/-- What the outside world hands the pipeline for one URL: whether the
HTTP status was a success (`raise_for_status`), the declared Content-Type
header, and the outcome of PDF text extraction on the body bytes
(`Except.error` models a `fitz` exception). -/
structure Fetched where
  okStatus : Bool
  contentType : List Char
  extracted : Except (List Char) (List Char)

/-- The failure classes `get_text_from_url` can surface. -/
inductive FetchErr where
  | downloadFailed
  | notPdf
  | pdfError
  | emptyText
  | aiError
deriving DecidableEq

def pdfCT : List Char := "application/pdf".toList

/-- `main.py`'s `get_text_from_url` (lines 47–63): HTTP failure, then the
Content-Type substring check, then extraction, then the
`if not full_text.strip()` emptiness check. -/
def mainGetText (f : Fetched) : Except FetchErr (List Char) :=
  if f.okStatus = false then Except.error FetchErr.downloadFailed
  else if occursIn pdfCT f.contentType = false then Except.error FetchErr.notPdf
  else
    match f.extracted with
    | Except.error _ => Except.error FetchErr.pdfError
    | Except.ok t =>
      if pyStrip t = [] then Except.error FetchErr.emptyText else Except.ok t

/-- `worker.py`'s `get_text_from_url` (lines 36–43): HTTP failure or
extraction failure only — no Content-Type check and no emptiness check. -/
def workerGetText (f : Fetched) : Except FetchErr (List Char) :=
  if f.okStatus = false then Except.error FetchErr.downloadFailed
  else
    match f.extracted with
    | Except.error _ => Except.error FetchErr.pdfError
    | Except.ok t => Except.ok t

/-- The worker pipeline up to and including the provider call: text
extraction then `provider` applied to the extracted text (the first line
of `get_summary_from_ai` on the worker side). -/
def workerPipeline (provider : List Char → Except FetchErr AIResult)
    (f : Fetched) : Except FetchErr AIResult :=
  match workerGetText f with
  | Except.error e => Except.error e
  | Except.ok t => provider t

/-!
### The cache variant (`main.py`, `analyze_paper`)
-/

/-- `main.py`'s `AnalysisResponse` pydantic model (lines 39–43). -/
structure AnalysisResponse where
  summary : List Char
  takeaways : List (List Char)
  methodology : List Char
  cached : Bool
deriving DecidableEq

/-- `request_url in analysis_cache` / `analysis_cache[request_url]`:
the in-memory dict, modelled as an association list where the most recent
binding wins. -/
def cacheLookup (cache : List (List Char × AnalysisResponse))
    (url : List Char) : Option AnalysisResponse :=
  (cache.find? (fun p => p.1 == url)).map (fun p => p.2)

/-- The response built from a parsed dictionary on a cache miss
(`AnalysisResponse(**analysis_dict, cached=False)`), or from a stored
entry on a hit (`cached=True`). -/
def mkResp (d : MainDict) (c : Bool) : AnalysisResponse :=
  { summary := d.summary, takeaways := d.takeaways,
    methodology := d.methodology, cached := c }

/-- `main.py`'s `analyze_paper` endpoint (lines 119–149).  `pipeline` is
`get_text_from_url` composed with `get_summary_from_ai` for this request:
`Except.error` models a raised `HTTPException`.  Returns the cache after
the request together with the request's outcome. -/
def analyzePaper (pipeline : List Char → Except FetchErr MainDict)
    (cache : List (List Char × AnalysisResponse)) (url : List Char) :
    List (List Char × AnalysisResponse) × Except FetchErr AnalysisResponse :=
  match cacheLookup cache url with
  | some r =>
    (cache, Except.ok { summary := r.summary, takeaways := r.takeaways,
                        methodology := r.methodology, cached := true })
  | none =>
    match pipeline url with
    | Except.error e => (cache, Except.error e)
    | Except.ok d =>
      let resp := mkResp d false
      ((url, resp) :: cache, Except.ok resp)

/-!
### Concrete fixtures used to instantiate the theorems
-/

def exAI : AIResult :=
  { title := "T".toList, summary := "S".toList,
    takeaways := ["a".toList], methodology := "M".toList }

def exDict : MainDict :=
  { summary := "s".toList, takeaways := ["a".toList],
    methodology := "m".toList }

def exJob : Job := submitJob 1 "u".toList

def envOk : List Char → Except (List Char) AIResult :=
  fun _ => Except.ok exAI

def envErr : List Char → Except (List Char) AIResult :=
  fun _ => Except.error "boom".toList

def pipeOk : List Char → Except FetchErr MainDict :=
  fun _ => Except.ok exDict

def pipeErr : List Char → Except FetchErr MainDict :=
  fun _ => Except.error FetchErr.downloadFailed

def exFetched : Fetched :=
  { okStatus := true, contentType := "application/pdf".toList,
    extracted := Except.ok "x".toList }

/-!
### Lemmas about `splitOn`
-/

theorem splitGo_skip (sep : List Char) :
    ∀ s k, splitGo sep k s = splitOn sep (s.drop k) := by
  intro s
  induction s with
  | nil => intro k; cases k <;> rfl
  | cons c rest ih =>
    intro k
    cases k with
    | zero => rfl
    | succ k =>
      show splitGo sep k rest = _
      simpa using ih k

theorem splitGo_ne_nil (sep : List Char) :
    ∀ s k, splitGo sep k s ≠ [] := by
  intro s
  induction s with
  | nil => intro k; cases k <;> simp [splitGo]
  | cons c rest ih =>
    intro k
    cases k with
    | succ k => simpa [splitGo] using ih k
    | zero =>
      simp only [splitGo]
      split
      · simp
      · cases hh : splitGo sep 0 rest <;> simp [hh]

theorem splitOn_ne_nil (sep s : List Char) : splitOn sep s ≠ [] :=
  splitGo_ne_nil sep s 0

theorem splitOn_cons_pos (sep : List Char) (c : Char) (rest : List Char)
    (h : isPre sep (c :: rest) = true) :
    splitOn sep (c :: rest) = [] :: splitOn sep (rest.drop (sep.length - 1)) := by
  simp only [splitOn, splitGo, h, if_true]
  rw [splitGo_skip]
  rfl

theorem splitOn_cons_neg (sep : List Char) (c : Char) (rest : List Char)
    (h : isPre sep (c :: rest) = false) :
    splitOn sep (c :: rest) = consAll [c] (splitOn sep rest) := by
  simp only [splitOn, splitGo, h, if_false, Bool.false_eq_true]
  cases hh : splitGo sep 0 rest <;> simp [consAll, hh]

theorem consAll_consAll (c : Char) (y : List Char) (L : List (List Char)) :
    consAll [c] (consAll y L) = consAll (c :: y) L := by
  cases L <;> simp [consAll]

theorem isPre_self_append (x y : List Char) : isPre x (x ++ y) = true := by
  induction x with
  | nil => rfl
  | cons c x ih => simp [isPre, ih]

theorem isPre_of_append (a : List Char) :
    ∀ b x, isPre a (b ++ x) = true → isPre a b = true ∨ isPre b a = true := by
  induction a with
  | nil => intro b x _; left; rfl
  | cons c a ih =>
    intro b x h
    cases b with
    | nil => right; rfl
    | cons d b =>
      simp only [List.cons_append, isPre, Bool.and_eq_true, beq_iff_eq] at h ⊢
      rcases h with ⟨rfl, h⟩
      rcases ih b x h with h' | h'
      · exact Or.inl ⟨rfl, h'⟩
      · exact Or.inr ⟨rfl, h'⟩

theorem splitOn_piece (sep' s0 : List Char) (h0 : '<' ∉ s0) :
    ∀ x, splitOn ('<' :: sep') (s0 ++ x) = consAll s0 (splitOn ('<' :: sep') x) := by
  induction s0 with
  | nil =>
    intro x
    cases hL : splitOn ('<' :: sep') x with
    | nil => exact absurd hL (splitOn_ne_nil _ x)
    | cons h t => simp [consAll, hL]
  | cons c s0 ih =>
    intro x
    have hc : c ≠ '<' := by
      intro h; exact h0 (h ▸ List.mem_cons_self c s0)
    have hpre : isPre ('<' :: sep') (c :: (s0 ++ x)) = false := by
      simp [isPre, Ne.symm hc]
    rw [List.cons_append, splitOn_cons_neg _ _ _ hpre,
        ih (fun h => h0 (List.mem_cons_of_mem c h)) x, consAll_consAll]

theorem splitOn_tag_self (sep b : List Char) (hsep : goodTag sep = true) :
    splitOn sep (sep ++ b) = [] :: splitOn sep b := by
  cases sep with
  | nil => simp [goodTag] at hsep
  | cons c s' =>
    rw [List.cons_append, splitOn_cons_pos _ _ _ (by simpa using isPre_self_append (c :: s') b)]
    have hdrop : (s' ++ b).drop ((c :: s').length - 1) = b := by
      simp [List.drop_left]
    rw [hdrop]

theorem splitOn_tag_other (sep m x : List Char) (hsep : goodTag sep = true)
    (hm : goodTag m = true)
    (h1 : isPre sep m = false) (h2 : isPre m sep = false) :
    splitOn sep (m ++ x) = consAll m (splitOn sep x) := by
  cases m with
  | nil => simp [goodTag] at hm
  | cons c m' =>
    obtain ⟨hc, hm'⟩ : c = '<' ∧ '<' ∉ m' := by
      simpa [goodTag] using hm
    subst hc
    have hpre : isPre sep (('<' :: m') ++ x) = false := by
      rcases h : isPre sep (('<' :: m') ++ x) with _ | _
      · rfl
      · rcases isPre_of_append sep ('<' :: m') x h with h' | h'
        · rw [h1] at h'; exact absurd h' (by simp)
        · rw [h2] at h'; exact absurd h' (by simp)
    cases sep with
    | nil => simp [goodTag] at hsep
    | cons d s' =>
      have hd : d = '<' := by
        have := (by simpa [goodTag] using hsep : d = '<' ∧ '<' ∉ s')
        exact this.1
      subst hd
      rw [List.cons_append, splitOn_cons_neg _ _ _ (by simpa using hpre),
          splitOn_piece s' m' hm' x, consAll_consAll]

/-!
### `splitOn` on rendered token documents
-/

/-- On a rendered token document whose pieces are free of the tag-opening
character and whose tags are pairwise prefix-incomparable with `sep`,
`splitOn sep` is computed by `tokSplit sep`. -/
theorem splitOn_rendT (sep : List Char) (hsep : goodTag sep = true) :
    ∀ ts : List Tok,
      (∀ s ∈ piecesOf ts, '<' ∉ s) →
      (∀ m ∈ tagsOf ts, goodTag m = true ∧
        (m ≠ sep → isPre sep m = false ∧ isPre m sep = false)) →
      splitOn sep (rendT ts) = tokSplit sep ts := by
  intro ts
  induction ts with
  | nil => intro _ _; rfl
  | cons tok ts ih =>
    intro hp ht
    cases tok with
    | piece s =>
      have hs : '<' ∉ s := hp s (by simp [piecesOf])
      have hrec := ih (fun x hx => hp x (by simp [piecesOf, hx])) (fun m hm => ht m (by simp [tagsOf, hm]))
      cases sep with
      | nil => simp [goodTag] at hsep
      | cons d s' =>
        have hd : d = '<' := ((by simpa [goodTag] using hsep : d = '<' ∧ '<' ∉ s')).1
        subst hd
        rw [rendT, splitOn_piece s' s hs (rendT ts), hrec, tokSplit]
    | tag m =>
      have hmfacts := ht m (by simp [tagsOf])
      have hrec := ih (fun x hx => hp x (by simp [piecesOf, hx])) (fun x hx => ht x (by simp [tagsOf, hx]))
      by_cases hms : m = sep
      · subst hms
        rw [rendT, splitOn_tag_self _ _ hsep, hrec]
        simp [tokSplit]
      · obtain ⟨hgm, h12⟩ := hmfacts
        obtain ⟨h1, h2⟩ := h12 hms
        rw [rendT, splitOn_tag_other sep m _ hsep hgm h1 h2, hrec]
        simp [tokSplit, hms]

/-- A token document with no `sep` tag renders into a single fragment. -/
theorem tokSplit_no_tag (sep : List Char) :
    ∀ ts : List Tok, (∀ m ∈ tagsOf ts, m ≠ sep) →
      tokSplit sep ts = [rendT ts] := by
  intro ts
  induction ts with
  | nil => intro _; rfl
  | cons tok ts ih =>
    intro h
    cases tok with
    | piece s =>
      rw [tokSplit, ih (fun m hm => h m (by simp [tagsOf, hm])), rendT]
      simp [consAll]
    | tag m =>
      have hm : m ≠ sep := h m (by simp [tagsOf])
      rw [tokSplit, if_neg hm, ih (fun x hx => h x (by simp [tagsOf, hx])), rendT]
      simp [consAll]

/-- Splitting at the first `sep` tag: everything before it is the first
fragment. -/
theorem tokSplit_through (sep : List Char) :
    ∀ ts1 ts2 : List Tok, (∀ m ∈ tagsOf ts1, m ≠ sep) →
      tokSplit sep (ts1 ++ Tok.tag sep :: ts2) = rendT ts1 :: tokSplit sep ts2 := by
  intro ts1
  induction ts1 with
  | nil => intro ts2 _; simp [tokSplit, rendT]
  | cons tok ts1 ih =>
    intro ts2 h
    cases tok with
    | piece s =>
      rw [List.cons_append, tokSplit, ih ts2 (fun m hm => h m (by simp [tagsOf, hm])), rendT]
      simp [consAll]
    | tag m =>
      have hm : m ≠ sep := h m (by simp [tagsOf])
      rw [List.cons_append, tokSplit, if_neg hm,
          ih ts2 (fun x hx => h x (by simp [tagsOf, hx])), rendT]
      simp [consAll]

theorem piecesOf_append (ts1 ts2 : List Tok) :
    piecesOf (ts1 ++ ts2) = piecesOf ts1 ++ piecesOf ts2 := by
  induction ts1 with
  | nil => rfl
  | cons tok ts1 ih => cases tok <;> simp [piecesOf, ih]

theorem tagsOf_append (ts1 ts2 : List Tok) :
    tagsOf (ts1 ++ ts2) = tagsOf ts1 ++ tagsOf ts2 := by
  induction ts1 with
  | nil => rfl
  | cons tok ts1 ih => cases tok <;> simp [tagsOf, ih]

theorem tagsOf_itemToks (items : List (List Char × List Char)) :
    ∀ m ∈ tagsOf (itemToks items), m = oItem ∨ m = cItem := by
  induction items with
  | nil => intro m hm; simp [itemToks, tagsOf] at hm
  | cons p more ih =>
    intro m hm
    simp only [itemToks, tagsOf, List.mem_cons] at hm
    rcases hm with rfl | rfl | hm
    · exact Or.inl rfl
    · exact Or.inr rfl
    · exact ih m hm

theorem piecesOf_itemToks (items : List (List Char × List Char)) :
    ∀ s ∈ piecesOf (itemToks items), ∃ p ∈ items, s = p.1 ∨ s = p.2 := by
  induction items with
  | nil => intro s hs; simp [itemToks, piecesOf] at hs
  | cons p more ih =>
    intro s hs
    simp only [itemToks, piecesOf, List.mem_cons] at hs
    rcases hs with rfl | rfl | hs
    · exact ⟨p, by simp, Or.inl rfl⟩
    · exact ⟨p, by simp, Or.inr rfl⟩
    · obtain ⟨q, hq, h⟩ := ih s hs
      exact ⟨q, by simp [hq], h⟩

/-- Splitting the rendered takeaways body at `<item>` yields one fragment
per item, each fragment being the item text, the closing item tag, and
the glue after it. -/
theorem tokSplit_itemToks (items : List (List Char × List Char)) :
    tokSplit oItem (itemToks items) =
      [] :: items.map (fun p => p.1 ++ (cItem ++ p.2)) := by
  induction items with
  | nil => rfl
  | cons p more ih =>
    have hne : cItem ≠ oItem := by decide
    rw [itemToks, tokSplit, if_pos rfl, tokSplit, tokSplit, if_neg hne, tokSplit, ih]
    simp [consAll]

/-!
### Marker facts and well-formed documents
-/

/-- The ten markers are good tags and pairwise prefix-incomparable. -/
theorem markers_ok :
    ∀ sep ∈ markers, ∀ m ∈ markers, (goodTag m = true) ∧
      (m ≠ sep → isPre sep m = false ∧ isPre m sep = false) := by decide

theorem wfT_itemToks (items : List (List Char × List Char))
    (h : ∀ p ∈ items, '<' ∉ p.1 ∧ '<' ∉ p.2) : wfT (itemToks items) := by
  induction items with
  | nil => intro tok htok; simp [itemToks] at htok
  | cons p more ih =>
    intro tok htok
    simp only [itemToks, List.mem_cons] at htok
    rcases htok with rfl | rfl | rfl | rfl | htok
    · simp [okTok, markers]
    · exact (h p (by simp)).1
    · simp [okTok, markers]
    · exact (h p (by simp)).2
    · exact ih (fun q hq => h q (by simp [hq])) tok htok

/-- `splitOn` on a well-formed rendered document, packaged form. -/
theorem splitOn_wfT (sep : List Char) (hsep : sep ∈ markers)
    (ts : List Tok) (hw : wfT ts) :
    splitOn sep (rendT ts) = tokSplit sep ts := by
  refine splitOn_rendT sep ((markers_ok sep hsep sep hsep).1) ts ?_ ?_
  · intro s hs
    induction ts with
    | nil => simp [piecesOf] at hs
    | cons tok ts ih =>
      cases tok with
      | piece x =>
        simp only [piecesOf, List.mem_cons] at hs
        rcases hs with rfl | hs
        · exact hw (Tok.piece s) (by simp)
        · exact ih (fun t ht => hw t (by simp [ht])) hs
      | tag m =>
        simp only [piecesOf] at hs
        exact ih (fun t ht => hw t (by simp [ht])) hs
  · intro m hm
    have hmem : m ∈ markers := by
      clear hsep
      induction ts with
      | nil => simp [tagsOf] at hm
      | cons tok ts ih =>
        cases tok with
        | piece x =>
          simp only [tagsOf] at hm
          exact ih (fun t ht => hw t (by simp [ht])) hm
        | tag x =>
          simp only [tagsOf, List.mem_cons] at hm
          rcases hm with rfl | hm
          · exact hw (Tok.tag m) (by simp)
          · exact ih (fun t ht => hw t (by simp [ht])) hm
    exact markers_ok sep hsep m hmem

/-- `message.split(sep)[1]` on a well-formed document containing exactly
one `sep` tag: the rendering of everything after that tag. -/
theorem extractAfter_wfT (sep : List Char) (hsep : sep ∈ markers)
    (ts1 ts2 : List Tok) (hw : wfT (ts1 ++ Tok.tag sep :: ts2))
    (h1 : ∀ m ∈ tagsOf ts1, m ≠ sep) (h2 : ∀ m ∈ tagsOf ts2, m ≠ sep) :
    extractAfter sep (rendT (ts1 ++ Tok.tag sep :: ts2)) = some (rendT ts2) := by
  rw [extractAfter, splitOn_wfT sep hsep _ hw, tokSplit_through sep ts1 ts2 h1,
      tokSplit_no_tag sep ts2 h2]

/-- `seg.split(sep)[0]` on a well-formed document whose first `sep` tag
separates `ts1` from `ts2`: the rendering of `ts1`. -/
theorem before_wfT (sep : List Char) (hsep : sep ∈ markers)
    (ts1 ts2 : List Tok) (hw : wfT (ts1 ++ Tok.tag sep :: ts2))
    (h1 : ∀ m ∈ tagsOf ts1, m ≠ sep) :
    before sep (rendT (ts1 ++ Tok.tag sep :: ts2)) = rendT ts1 := by
  rw [before, splitOn_wfT sep hsep _ hw, tokSplit_through sep ts1 ts2 h1]
  rfl

theorem wfT_append (ts1 ts2 : List Tok) : wfT (ts1 ++ ts2) ↔ wfT ts1 ∧ wfT ts2 :=
  List.forall_mem_append

theorem wfT_cons (tok : Tok) (ts : List Tok) :
    wfT (tok :: ts) ↔ okTok tok ∧ wfT ts :=
  List.forall_mem_cons

theorem wfT_nil : wfT [] := by intro tok h; simp at h

theorem mem_oTitle : oTitle ∈ markers := by decide
theorem mem_cTitle : cTitle ∈ markers := by decide
theorem mem_oSum : oSum ∈ markers := by decide
theorem mem_cSum : cSum ∈ markers := by decide
theorem mem_oMeth : oMeth ∈ markers := by decide
theorem mem_cMeth : cMeth ∈ markers := by decide
theorem mem_oTake : oTake ∈ markers := by decide
theorem mem_cTake : cTake ∈ markers := by decide
theorem mem_oItem : oItem ∈ markers := by decide
theorem mem_cItem : cItem ∈ markers := by decide

theorem itemTags_ne (sep : List Char) (h1 : oItem ≠ sep) (h2 : cItem ≠ sep)
    (items : List (List Char × List Char)) :
    ∀ m ∈ tagsOf (itemToks items), m ≠ sep := by
  intro m hm
  rcases tagsOf_itemToks items m hm with rfl | rfl
  · exact h1
  · exact h2

theorem tags_ne_concat (sep : List Char) (A B : List Tok)
    (items : List (List Char × List Char))
    (hA : ∀ m ∈ tagsOf A, m ≠ sep) (hB : ∀ m ∈ tagsOf B, m ≠ sep)
    (h1 : oItem ≠ sep) (h2 : cItem ≠ sep) :
    ∀ m ∈ tagsOf (A ++ itemToks items ++ B), m ≠ sep := by
  intro m hm
  simp only [tagsOf_append, List.mem_append] at hm
  rcases hm with (h | h) | h
  · exact hA m h
  · exact itemTags_ne sep h1 h2 items m h
  · exact hB m h

/-!
### The parser on well-formed replies
-/

/-- `worker.py`'s parser on every well-formed reply: each of title,
summary and methodology is the stripped text between its marker pair, and
there is exactly one takeaway per item pair, in document order. -/
theorem parseWorker_rend (pre t g1 s g2 m g3 i0 post : List Char)
    (items : List (List Char × List Char))
    (hpre : '<' ∉ pre) (ht : '<' ∉ t) (hg1 : '<' ∉ g1) (hs : '<' ∉ s)
    (hg2 : '<' ∉ g2) (hm : '<' ∉ m) (hg3 : '<' ∉ g3) (hi0 : '<' ∉ i0)
    (hpost : '<' ∉ post) (hitems : ∀ p ∈ items, '<' ∉ p.1 ∧ '<' ∉ p.2) :
    parseWorker (rendWorker pre t g1 s g2 m g3 i0 post items) =
      some { title := pyStrip t, summary := pyStrip s,
             takeaways := items.map (fun p => pyStrip p.1),
             methodology := pyStrip m } := by
  have hwItems : wfT (itemToks items) := wfT_itemToks items hitems
  have hwAll : wfT (workerToks pre t g1 s g2 m g3 i0 post items) := by
    simp only [workerToks, List.cons_append, List.nil_append, List.append_assoc,
      wfT_append, wfT_cons, okTok, mem_oTitle, mem_cTitle, mem_oSum, mem_cSum,
      mem_oMeth, mem_cMeth, mem_oTake, mem_cTake,
      hpre, ht, hg1, hs, hg2, hm, hg3, hi0, hpost, hwItems, wfT_nil,
      and_true, true_and, not_false_eq_true]
  have hwT : wfT ([Tok.piece t, Tok.tag cTitle, Tok.piece g1,
      Tok.tag oSum, Tok.piece s, Tok.tag cSum, Tok.piece g2,
      Tok.tag oMeth, Tok.piece m, Tok.tag cMeth, Tok.piece g3,
      Tok.tag oTake, Tok.piece i0] ++ itemToks items ++
      [Tok.tag cTake, Tok.piece post]) := by
    simp only [List.cons_append, List.nil_append, List.append_assoc,
      wfT_append, wfT_cons, okTok, mem_cTitle, mem_oSum, mem_cSum,
      mem_oMeth, mem_cMeth, mem_oTake, mem_cTake,
      ht, hg1, hs, hg2, hm, hg3, hi0, hpost, hwItems, wfT_nil,
      and_true, true_and, not_false_eq_true]
  have hwS : wfT ([Tok.piece s, Tok.tag cSum, Tok.piece g2,
      Tok.tag oMeth, Tok.piece m, Tok.tag cMeth, Tok.piece g3,
      Tok.tag oTake, Tok.piece i0] ++ itemToks items ++
      [Tok.tag cTake, Tok.piece post]) := by
    simp only [List.cons_append, List.nil_append, List.append_assoc,
      wfT_append, wfT_cons, okTok, mem_cSum, mem_oMeth, mem_cMeth,
      mem_oTake, mem_cTake, hs, hg2, hm, hg3, hi0, hpost, hwItems, wfT_nil,
      and_true, true_and, not_false_eq_true]
  have hwM : wfT ([Tok.piece m, Tok.tag cMeth, Tok.piece g3,
      Tok.tag oTake, Tok.piece i0] ++ itemToks items ++
      [Tok.tag cTake, Tok.piece post]) := by
    simp only [List.cons_append, List.nil_append, List.append_assoc,
      wfT_append, wfT_cons, okTok, mem_cMeth, mem_oTake, mem_cTake,
      hm, hg3, hi0, hpost, hwItems, wfT_nil,
      and_true, true_and, not_false_eq_true]
  have hwK : wfT ([Tok.piece i0] ++ itemToks items ++
      [Tok.tag cTake, Tok.piece post]) := by
    simp only [List.cons_append, List.nil_append, List.append_assoc,
      wfT_append, wfT_cons, okTok, mem_cTake, hi0, hpost, hwItems, wfT_nil,
      and_true, true_and, not_false_eq_true]
  have hwBlk : wfT ([Tok.piece i0] ++ itemToks items) := by
    simp only [List.cons_append, List.nil_append, wfT_append, wfT_cons, okTok,
      hi0, hwItems, wfT_nil, and_true, true_and, not_false_eq_true]
  have hTail : ∀ sep : List Char, cTake ≠ sep →
      ∀ m' ∈ tagsOf [Tok.tag cTake, Tok.piece post], m' ≠ sep := by
    intro sep hsep m' hm'
    simp only [tagsOf, List.mem_cons, List.not_mem_nil, or_false] at hm'
    subst hm'
    exact hsep
  have e1 : extractAfter oTitle (rendWorker pre t g1 s g2 m g3 i0 post items) =
      some (rendT ([Tok.piece t, Tok.tag cTitle, Tok.piece g1,
        Tok.tag oSum, Tok.piece s, Tok.tag cSum, Tok.piece g2,
        Tok.tag oMeth, Tok.piece m, Tok.tag cMeth, Tok.piece g3,
        Tok.tag oTake, Tok.piece i0] ++ itemToks items ++
        [Tok.tag cTake, Tok.piece post])) := by
    refine extractAfter_wfT oTitle mem_oTitle [Tok.piece pre] _ hwAll ?_ ?_
    · intro x hx; simp [tagsOf] at hx
    · refine tags_ne_concat oTitle _ _ items ?_ (hTail oTitle (by decide))
        (by decide) (by decide)
      intro x hx
      simp only [tagsOf, List.mem_cons, List.not_mem_nil, or_false] at hx
      rcases hx with rfl | rfl | rfl | rfl | rfl | rfl <;> decide
  have b1 : before cTitle (rendT ([Tok.piece t, Tok.tag cTitle, Tok.piece g1,
      Tok.tag oSum, Tok.piece s, Tok.tag cSum, Tok.piece g2,
      Tok.tag oMeth, Tok.piece m, Tok.tag cMeth, Tok.piece g3,
      Tok.tag oTake, Tok.piece i0] ++ itemToks items ++
      [Tok.tag cTake, Tok.piece post])) = rendT [Tok.piece t] := by
    refine before_wfT cTitle mem_cTitle [Tok.piece t] _ hwT ?_
    intro x hx; simp [tagsOf] at hx
  have e2 : extractAfter oSum (rendWorker pre t g1 s g2 m g3 i0 post items) =
      some (rendT ([Tok.piece s, Tok.tag cSum, Tok.piece g2,
        Tok.tag oMeth, Tok.piece m, Tok.tag cMeth, Tok.piece g3,
        Tok.tag oTake, Tok.piece i0] ++ itemToks items ++
        [Tok.tag cTake, Tok.piece post])) := by
    refine extractAfter_wfT oSum mem_oSum
      [Tok.piece pre, Tok.tag oTitle, Tok.piece t, Tok.tag cTitle, Tok.piece g1]
      _ hwAll ?_ ?_
    · intro x hx
      simp only [tagsOf, List.mem_cons, List.not_mem_nil, or_false] at hx
      rcases hx with rfl | rfl <;> decide
    · refine tags_ne_concat oSum _ _ items ?_ (hTail oSum (by decide))
        (by decide) (by decide)
      intro x hx
      simp only [tagsOf, List.mem_cons, List.not_mem_nil, or_false] at hx
      rcases hx with rfl | rfl | rfl | rfl | rfl <;> decide
  have b2 : before cSum (rendT ([Tok.piece s, Tok.tag cSum, Tok.piece g2,
      Tok.tag oMeth, Tok.piece m, Tok.tag cMeth, Tok.piece g3,
      Tok.tag oTake, Tok.piece i0] ++ itemToks items ++
      [Tok.tag cTake, Tok.piece post])) = rendT [Tok.piece s] := by
    refine before_wfT cSum mem_cSum [Tok.piece s] _ hwS ?_
    intro x hx; simp [tagsOf] at hx
  have e3 : extractAfter oMeth (rendWorker pre t g1 s g2 m g3 i0 post items) =
      some (rendT ([Tok.piece m, Tok.tag cMeth, Tok.piece g3,
        Tok.tag oTake, Tok.piece i0] ++ itemToks items ++
        [Tok.tag cTake, Tok.piece post])) := by
    refine extractAfter_wfT oMeth mem_oMeth
      [Tok.piece pre, Tok.tag oTitle, Tok.piece t, Tok.tag cTitle, Tok.piece g1,
       Tok.tag oSum, Tok.piece s, Tok.tag cSum, Tok.piece g2]
      _ hwAll ?_ ?_
    · intro x hx
      simp only [tagsOf, List.mem_cons, List.not_mem_nil, or_false] at hx
      rcases hx with rfl | rfl | rfl | rfl <;> decide
    · refine tags_ne_concat oMeth _ _ items ?_ (hTail oMeth (by decide))
        (by decide) (by decide)
      intro x hx
      simp only [tagsOf, List.mem_cons, List.not_mem_nil, or_false] at hx
      rcases hx with rfl | rfl | rfl <;> decide
  have b3 : before cMeth (rendT ([Tok.piece m, Tok.tag cMeth, Tok.piece g3,
      Tok.tag oTake, Tok.piece i0] ++ itemToks items ++
      [Tok.tag cTake, Tok.piece post])) = rendT [Tok.piece m] := by
    refine before_wfT cMeth mem_cMeth [Tok.piece m] _ hwM ?_
    intro x hx; simp [tagsOf] at hx
  have e4 : extractAfter oTake (rendWorker pre t g1 s g2 m g3 i0 post items) =
      some (rendT ([Tok.piece i0] ++ itemToks items ++
        [Tok.tag cTake, Tok.piece post])) := by
    refine extractAfter_wfT oTake mem_oTake
      [Tok.piece pre, Tok.tag oTitle, Tok.piece t, Tok.tag cTitle, Tok.piece g1,
       Tok.tag oSum, Tok.piece s, Tok.tag cSum, Tok.piece g2,
       Tok.tag oMeth, Tok.piece m, Tok.tag cMeth, Tok.piece g3]
      _ hwAll ?_ ?_
    · intro x hx
      simp only [tagsOf, List.mem_cons, List.not_mem_nil, or_false] at hx
      rcases hx with rfl | rfl | rfl | rfl | rfl | rfl <;> decide
    · refine tags_ne_concat oTake _ _ items ?_ (hTail oTake (by decide))
        (by decide) (by decide)
      intro x hx
      simp [tagsOf] at hx
  have b4 : before cTake (rendT ([Tok.piece i0] ++ itemToks items ++
      [Tok.tag cTake, Tok.piece post])) =
      rendT ([Tok.piece i0] ++ itemToks items) := by
    refine before_wfT cTake mem_cTake ([Tok.piece i0] ++ itemToks items)
      [Tok.piece post] hwK ?_
    intro x hx
    simp only [tagsOf_append, tagsOf, List.nil_append, List.append_nil] at hx
    exact itemTags_ne cTake (by decide) (by decide) items x hx
  have hblk : splitOn oItem (rendT ([Tok.piece i0] ++ itemToks items)) =
      i0 :: items.map (fun p => p.1 ++ (cItem ++ p.2)) := by
    rw [splitOn_wfT oItem mem_oItem _ hwBlk]
    show consAll i0 (tokSplit oItem (itemToks items)) = _
    rw [tokSplit_itemToks]
    simp [consAll]
  have hpt : ∀ p ∈ items,
      pyStrip (before cItem (p.1 ++ (cItem ++ p.2))) = pyStrip p.1 := by
    intro p hp
    have hw : wfT ([Tok.piece p.1] ++ Tok.tag cItem :: [Tok.piece p.2]) := by
      simp only [List.cons_append, List.nil_append, wfT_cons, wfT_nil, okTok,
        mem_cItem, (hitems p hp).1, (hitems p hp).2,
        and_true, true_and, not_false_eq_true]
    have hb := before_wfT cItem mem_cItem [Tok.piece p.1] [Tok.piece p.2] hw
      (by intro x hx; simp [tagsOf] at hx)
    have hrw : p.1 ++ (cItem ++ p.2) =
        rendT ([Tok.piece p.1] ++ Tok.tag cItem :: [Tok.piece p.2]) := by
      simp [rendT]
    rw [hrw, hb]
    simp [rendT]
  have hTake : (items.map (fun p => p.1 ++ (cItem ++ p.2))).map
      (fun it => pyStrip (before cItem it)) = items.map (fun p => pyStrip p.1) := by
    rw [List.map_map]
    refine List.map_congr_left ?_
    intro p hp
    simpa using hpt p hp
  simp only [parseWorker, e1, e2, e3, e4]
  simp only [b1, b2, b3, b4, hblk, List.tail_cons, hTake]
  simp only [rendT, List.append_nil]

/-- `main.py`'s parser on every well-formed reply (no title section):
summary and methodology are the stripped enclosed text, one takeaway per
item pair, in document order. -/
theorem parseMain_rend (pre s g2 m g3 i0 post : List Char)
    (items : List (List Char × List Char))
    (hpre : '<' ∉ pre) (hs : '<' ∉ s) (hg2 : '<' ∉ g2) (hm : '<' ∉ m)
    (hg3 : '<' ∉ g3) (hi0 : '<' ∉ i0) (hpost : '<' ∉ post)
    (hitems : ∀ p ∈ items, '<' ∉ p.1 ∧ '<' ∉ p.2) :
    parseMain (rendMain pre s g2 m g3 i0 post items) =
      some { summary := pyStrip s,
             takeaways := items.map (fun p => pyStrip p.1),
             methodology := pyStrip m } := by
  have hwItems : wfT (itemToks items) := wfT_itemToks items hitems
  have hwAll : wfT (mainToks pre s g2 m g3 i0 post items) := by
    simp only [mainToks, List.cons_append, List.nil_append, List.append_assoc,
      wfT_append, wfT_cons, okTok, mem_oSum, mem_cSum,
      mem_oMeth, mem_cMeth, mem_oTake, mem_cTake,
      hpre, hs, hg2, hm, hg3, hi0, hpost, hwItems, wfT_nil,
      and_true, true_and, not_false_eq_true]
  have hwS : wfT ([Tok.piece s, Tok.tag cSum, Tok.piece g2,
      Tok.tag oMeth, Tok.piece m, Tok.tag cMeth, Tok.piece g3,
      Tok.tag oTake, Tok.piece i0] ++ itemToks items ++
      [Tok.tag cTake, Tok.piece post]) := by
    simp only [List.cons_append, List.nil_append, List.append_assoc,
      wfT_append, wfT_cons, okTok, mem_cSum, mem_oMeth, mem_cMeth,
      mem_oTake, mem_cTake, hs, hg2, hm, hg3, hi0, hpost, hwItems, wfT_nil,
      and_true, true_and, not_false_eq_true]
  have hwM : wfT ([Tok.piece m, Tok.tag cMeth, Tok.piece g3,
      Tok.tag oTake, Tok.piece i0] ++ itemToks items ++
      [Tok.tag cTake, Tok.piece post]) := by
    simp only [List.cons_append, List.nil_append, List.append_assoc,
      wfT_append, wfT_cons, okTok, mem_cMeth, mem_oTake, mem_cTake,
      hm, hg3, hi0, hpost, hwItems, wfT_nil,
      and_true, true_and, not_false_eq_true]
  have hwK : wfT ([Tok.piece i0] ++ itemToks items ++
      [Tok.tag cTake, Tok.piece post]) := by
    simp only [List.cons_append, List.nil_append, List.append_assoc,
      wfT_append, wfT_cons, okTok, mem_cTake, hi0, hpost, hwItems, wfT_nil,
      and_true, true_and, not_false_eq_true]
  have hwBlk : wfT ([Tok.piece i0] ++ itemToks items) := by
    simp only [List.cons_append, List.nil_append, wfT_append, wfT_cons, okTok,
      hi0, hwItems, wfT_nil, and_true, true_and, not_false_eq_true]
  have hTail : ∀ sep : List Char, cTake ≠ sep →
      ∀ m' ∈ tagsOf [Tok.tag cTake, Tok.piece post], m' ≠ sep := by
    intro sep hsep m' hm'
    simp only [tagsOf, List.mem_cons, List.not_mem_nil, or_false] at hm'
    subst hm'
    exact hsep
  have e2 : extractAfter oSum (rendMain pre s g2 m g3 i0 post items) =
      some (rendT ([Tok.piece s, Tok.tag cSum, Tok.piece g2,
        Tok.tag oMeth, Tok.piece m, Tok.tag cMeth, Tok.piece g3,
        Tok.tag oTake, Tok.piece i0] ++ itemToks items ++
        [Tok.tag cTake, Tok.piece post])) := by
    refine extractAfter_wfT oSum mem_oSum [Tok.piece pre] _ hwAll ?_ ?_
    · intro x hx; simp [tagsOf] at hx
    · refine tags_ne_concat oSum _ _ items ?_ (hTail oSum (by decide))
        (by decide) (by decide)
      intro x hx
      simp only [tagsOf, List.mem_cons, List.not_mem_nil, or_false] at hx
      rcases hx with rfl | rfl | rfl | rfl | rfl <;> decide
  have b2 : before cSum (rendT ([Tok.piece s, Tok.tag cSum, Tok.piece g2,
      Tok.tag oMeth, Tok.piece m, Tok.tag cMeth, Tok.piece g3,
      Tok.tag oTake, Tok.piece i0] ++ itemToks items ++
      [Tok.tag cTake, Tok.piece post])) = rendT [Tok.piece s] := by
    refine before_wfT cSum mem_cSum [Tok.piece s] _ hwS ?_
    intro x hx; simp [tagsOf] at hx
  have e3 : extractAfter oMeth (rendMain pre s g2 m g3 i0 post items) =
      some (rendT ([Tok.piece m, Tok.tag cMeth, Tok.piece g3,
        Tok.tag oTake, Tok.piece i0] ++ itemToks items ++
        [Tok.tag cTake, Tok.piece post])) := by
    refine extractAfter_wfT oMeth mem_oMeth
      [Tok.piece pre, Tok.tag oSum, Tok.piece s, Tok.tag cSum, Tok.piece g2]
      _ hwAll ?_ ?_
    · intro x hx
      simp only [tagsOf, List.mem_cons, List.not_mem_nil, or_false] at hx
      rcases hx with rfl | rfl <;> decide
    · refine tags_ne_concat oMeth _ _ items ?_ (hTail oMeth (by decide))
        (by decide) (by decide)
      intro x hx
      simp only [tagsOf, List.mem_cons, List.not_mem_nil, or_false] at hx
      rcases hx with rfl | rfl | rfl <;> decide
  have b3 : before cMeth (rendT ([Tok.piece m, Tok.tag cMeth, Tok.piece g3,
      Tok.tag oTake, Tok.piece i0] ++ itemToks items ++
      [Tok.tag cTake, Tok.piece post])) = rendT [Tok.piece m] := by
    refine before_wfT cMeth mem_cMeth [Tok.piece m] _ hwM ?_
    intro x hx; simp [tagsOf] at hx
  have e4 : extractAfter oTake (rendMain pre s g2 m g3 i0 post items) =
      some (rendT ([Tok.piece i0] ++ itemToks items ++
        [Tok.tag cTake, Tok.piece post])) := by
    refine extractAfter_wfT oTake mem_oTake
      [Tok.piece pre, Tok.tag oSum, Tok.piece s, Tok.tag cSum, Tok.piece g2,
       Tok.tag oMeth, Tok.piece m, Tok.tag cMeth, Tok.piece g3]
      _ hwAll ?_ ?_
    · intro x hx
      simp only [tagsOf, List.mem_cons, List.not_mem_nil, or_false] at hx
      rcases hx with rfl | rfl | rfl | rfl <;> decide
    · refine tags_ne_concat oTake _ _ items ?_ (hTail oTake (by decide))
        (by decide) (by decide)
      intro x hx
      simp [tagsOf] at hx
  have b4 : before cTake (rendT ([Tok.piece i0] ++ itemToks items ++
      [Tok.tag cTake, Tok.piece post])) =
      rendT ([Tok.piece i0] ++ itemToks items) := by
    refine before_wfT cTake mem_cTake ([Tok.piece i0] ++ itemToks items)
      [Tok.piece post] hwK ?_
    intro x hx
    simp only [tagsOf_append, tagsOf, List.nil_append, List.append_nil] at hx
    exact itemTags_ne cTake (by decide) (by decide) items x hx
  have hblk : splitOn oItem (rendT ([Tok.piece i0] ++ itemToks items)) =
      i0 :: items.map (fun p => p.1 ++ (cItem ++ p.2)) := by
    rw [splitOn_wfT oItem mem_oItem _ hwBlk]
    show consAll i0 (tokSplit oItem (itemToks items)) = _
    rw [tokSplit_itemToks]
    simp [consAll]
  have hpt : ∀ p ∈ items,
      pyStrip (before cItem (p.1 ++ (cItem ++ p.2))) = pyStrip p.1 := by
    intro p hp
    have hw : wfT ([Tok.piece p.1] ++ Tok.tag cItem :: [Tok.piece p.2]) := by
      simp only [List.cons_append, List.nil_append, wfT_cons, wfT_nil, okTok,
        mem_cItem, (hitems p hp).1, (hitems p hp).2,
        and_true, true_and, not_false_eq_true]
    have hb := before_wfT cItem mem_cItem [Tok.piece p.1] [Tok.piece p.2] hw
      (by intro x hx; simp [tagsOf] at hx)
    have hrw : p.1 ++ (cItem ++ p.2) =
        rendT ([Tok.piece p.1] ++ Tok.tag cItem :: [Tok.piece p.2]) := by
      simp [rendT]
    rw [hrw, hb]
    simp [rendT]
  have hTake : (items.map (fun p => p.1 ++ (cItem ++ p.2))).map
      (fun it => pyStrip (before cItem it)) = items.map (fun p => pyStrip p.1) := by
    rw [List.map_map]
    refine List.map_congr_left ?_
    intro p hp
    simpa using hpt p hp
  simp only [parseMain, e2, e3, e4]
  simp only [b2, b3, b4, hblk, List.tail_cons, hTake]
  simp only [rendT, List.append_nil]

/-!
### Parse failure is exactly a missing opening marker
-/

theorem splitOn_single (sep s : List Char) (h : occursIn sep s = false) :
    splitOn sep s = [s] := by
  induction s with
  | nil => rfl
  | cons c rest ih =>
    simp only [occursIn, Bool.or_eq_false_iff] at h
    rw [splitOn_cons_neg sep c rest h.1, ih h.2]
    simp [consAll]

theorem splitOn_two (sep s : List Char) (hsep : sep ≠ [])
    (h : occursIn sep s = true) : 2 ≤ (splitOn sep s).length := by
  induction s with
  | nil =>
    cases sep with
    | nil => exact absurd rfl hsep
    | cons a as => simp [occursIn, isPre] at h
  | cons c rest ih =>
    rcases hp : isPre sep (c :: rest) with _ | _
    · simp only [occursIn, hp, Bool.false_or] at h
      rw [splitOn_cons_neg sep c rest hp]
      cases hh : splitOn sep rest with
      | nil => exact absurd hh (splitOn_ne_nil sep rest)
      | cons x xs =>
        have := ih h
        rw [hh] at this
        simpa [consAll] using this
    · rw [splitOn_cons_pos sep c rest hp]
      have := splitOn_ne_nil sep (rest.drop (sep.length - 1))
      cases hh : splitOn sep (rest.drop (sep.length - 1)) with
      | nil => exact absurd hh this
      | cons x xs => simp [hh]

theorem extractAfter_none_iff (sep msg : List Char) (hsep : sep ≠ []) :
    extractAfter sep msg = none ↔ occursIn sep msg = false := by
  rcases h : occursIn sep msg with _ | _
  · simp only [extractAfter, splitOn_single sep msg h]
  · have h2 := splitOn_two sep msg hsep h
    constructor
    · intro hnone
      rw [extractAfter] at hnone
      cases hl : splitOn sep msg with
      | nil => exact absurd hl (splitOn_ne_nil sep msg)
      | cons x xs =>
        cases xs with
        | nil => rw [hl] at h2; simp at h2
        | cons y ys => rw [hl] at hnone; simp at hnone
    · intro hocc
      exact absurd hocc (by simp)

theorem parseWorker_none_iff (msg : List Char) :
    parseWorker msg = none ↔
      (occursIn oTitle msg = false ∨ occursIn oSum msg = false ∨
       occursIn oMeth msg = false ∨ occursIn oTake msg = false) := by
  have hT := extractAfter_none_iff oTitle msg (by decide)
  have hS := extractAfter_none_iff oSum msg (by decide)
  have hM := extractAfter_none_iff oMeth msg (by decide)
  have hK := extractAfter_none_iff oTake msg (by decide)
  rcases e1 : extractAfter oTitle msg with _ | segT
  · simp [parseWorker, e1, hT.mp e1]
  rcases e2 : extractAfter oSum msg with _ | segS
  · simp [parseWorker, e1, e2, hS.mp e2]
  rcases e3 : extractAfter oMeth msg with _ | segM
  · simp [parseWorker, e1, e2, e3, hM.mp e3]
  rcases e4 : extractAfter oTake msg with _ | segK
  · simp [parseWorker, e1, e2, e3, e4, hK.mp e4]
  have h1 : occursIn oTitle msg = true := by
    cases hocc : occursIn oTitle msg
    · rw [hT.mpr hocc] at e1; cases e1
    · rfl
  have h2 : occursIn oSum msg = true := by
    cases hocc : occursIn oSum msg
    · rw [hS.mpr hocc] at e2; cases e2
    · rfl
  have h3 : occursIn oMeth msg = true := by
    cases hocc : occursIn oMeth msg
    · rw [hM.mpr hocc] at e3; cases e3
    · rfl
  have h4 : occursIn oTake msg = true := by
    cases hocc : occursIn oTake msg
    · rw [hK.mpr hocc] at e4; cases e4
    · rfl
  simp [parseWorker, e1, e2, e3, e4, h1, h2, h3, h4]

theorem parseMain_none_iff (msg : List Char) :
    parseMain msg = none ↔
      (occursIn oSum msg = false ∨ occursIn oMeth msg = false ∨
       occursIn oTake msg = false) := by
  have hS := extractAfter_none_iff oSum msg (by decide)
  have hM := extractAfter_none_iff oMeth msg (by decide)
  have hK := extractAfter_none_iff oTake msg (by decide)
  rcases e2 : extractAfter oSum msg with _ | segS
  · simp [parseMain, e2, hS.mp e2]
  rcases e3 : extractAfter oMeth msg with _ | segM
  · simp [parseMain, e2, e3, hM.mp e3]
  rcases e4 : extractAfter oTake msg with _ | segK
  · simp [parseMain, e2, e3, e4, hK.mp e4]
  have h2 : occursIn oSum msg = true := by
    cases hocc : occursIn oSum msg
    · rw [hS.mpr hocc] at e2; cases e2
    · rfl
  have h3 : occursIn oMeth msg = true := by
    cases hocc : occursIn oMeth msg
    · rw [hM.mpr hocc] at e3; cases e3
    · rfl
  have h4 : occursIn oTake msg = true := by
    cases hocc : occursIn oTake msg
    · rw [hK.mpr hocc] at e4; cases e4
    · rfl
  simp [parseMain, e2, e3, e4, h2, h3, h4]

/-!
### Store lemmas for the worker loop
-/

theorem findPending_mem (store : List Job) (j : Job)
    (h : findPending store = some j) : j ∈ store :=
  List.mem_of_find?_eq_some h

theorem findPending_status (store : List Job) (j : Job)
    (h : findPending store = some j) : j.status = sPENDING := by
  have := List.find?_some h
  simpa using this

theorem mem_updateJob_self (store : List Job) (j x : Job)
    (hx : x ∈ store) (hid : x.id = j.id) : j ∈ updateJob store j := by
  rw [updateJob]
  exact List.mem_map.2 ⟨x, hx, by simp [hid]⟩

theorem mem_updateJob_other (store : List Job) (j x : Job)
    (hx : x ∈ store) (hid : x.id ≠ j.id) : x ∈ updateJob store j := by
  rw [updateJob]
  exact List.mem_map.2 ⟨x, hx, by simp [hid]⟩

theorem updateJob_map_id (store : List Job) (j : Job) :
    (updateJob store j).map Job.id = store.map Job.id := by
  rw [updateJob, List.map_map]
  refine List.map_congr_left ?_
  intro x _
  by_cases h : x.id = j.id
  · simp [Function.comp, h]
  · simp [Function.comp, h]

theorem wf_updateJob (store : List Job) (j : Job) (h : wfStore store) :
    wfStore (updateJob store j) := by
  rw [wfStore, updateJob_map_id]
  exact h

theorem wf_id_inj (store : List Job) (h : wfStore store) (x y : Job)
    (hx : x ∈ store) (hy : y ∈ store) (hid : x.id = y.id) : x = y :=
  List.inj_on_of_nodup_map h hx hy hid

theorem finishJob_id (j : Job) (o : Except (List Char) AIResult) :
    (finishJob j o).id = j.id := by
  cases o <;> rfl

theorem wf_processPendingJob (env : List Char → Except (List Char) AIResult)
    (store : List Job) (h : wfStore store) :
    wfStore (processPendingJob env store) := by
  rw [processPendingJob, processPass]
  cases hf : findPending store with
  | none => exact h
  | some j => exact wf_updateJob _ _ (wf_updateJob _ _ h)

theorem nonPending_mem_pass (env : List Char → Except (List Char) AIResult)
    (store : List Job) (hwf : wfStore store) (x : Job) (hx : x ∈ store)
    (hst : x.status ≠ sPENDING) :
    x ∈ (processPass env store).1 ∧ x ∈ (processPass env store).2 := by
  rw [processPass]
  cases hf : findPending store with
  | none => exact ⟨hx, hx⟩
  | some j =>
    have hjmem : j ∈ store := findPending_mem store j hf
    have hjst : j.status = sPENDING := findPending_status store j hf
    have hne : x.id ≠ j.id := by
      intro hid
      have := wf_id_inj store hwf x j hx hjmem hid
      rw [this, hjst] at hst
      exact hst rfl
    have h1 : x ∈ updateJob store (claimJob j) := mem_updateJob_other _ _ _ hx hne
    refine ⟨h1, ?_⟩
    refine mem_updateJob_other _ _ _ h1 ?_
    rw [finishJob_id]
    exact hne


theorem nonPending_mem_workerRun (env : List Char → Except (List Char) AIResult) :
    ∀ n store, wfStore store → ∀ x ∈ store, x.status ≠ sPENDING →
      x ∈ workerRun env n store := by
  intro n
  induction n with
  | zero => intro store _ x hx _; exact hx
  | succ n ih =>
    intro store hwf x hx hst
    rw [workerRun]
    exact ih _ (wf_processPendingJob env store hwf) x
      ((nonPending_mem_pass env store hwf x hx hst).2) hst

theorem claimJob_id (j : Job) : (claimJob j).id = j.id := rfl

theorem selected_mem_pass (env : List Char → Except (List Char) AIResult)
    (store : List Job) (j : Job) (hfind : findPending store = some j) :
    claimJob j ∈ (processPass env store).1 ∧
    finishJob (claimJob j) (env j.url) ∈ (processPass env store).2 := by
  simp only [processPass, hfind]
  have hjmem := findPending_mem store j hfind
  have h1 : claimJob j ∈ updateJob store (claimJob j) :=
    mem_updateJob_self store (claimJob j) j hjmem rfl
  exact ⟨h1, mem_updateJob_self _ _ (claimJob j) h1 (finishJob_id _ _).symm⟩

/-!
### Claim theorems
-/

/-- C1.  Exactly one of {COMPLETED with all content fields populated,
FAILED with error_message populated, PENDING/PROCESSING with all content
fields empty} holds for a freshly submitted job, after the claim step, and
after the terminal write of a Processor pass; after the pass the status is
exactly COMPLETED or FAILED. -/
theorem jobInvariant_lifecycle (id : Nat) (url : List Char) (j : Job)
    (outcome : Except (List Char) AIResult)
    (hj : exactlyOneInv j) (hp : j.status = sPENDING) :
    exactlyOneInv (submitJob id url) ∧
    exactlyOneInv (claimJob j) ∧
    exactlyOneInv (finishJob (claimJob j) outcome) ∧
    ((finishJob (claimJob j) outcome).status = sCOMPLETED ∨
     (finishJob (claimJob j) outcome).status = sFAILED) := by
  have hce : contentEmpty j := by
    rcases hj with ⟨⟨hc, -⟩, -, -⟩ | ⟨-, ⟨hc, -⟩, -⟩ | ⟨-, -, -, hce⟩
    · rw [hp] at hc; exact absurd hc (by decide)
    · rw [hp] at hc; exact absurd hc (by decide)
    · exact hce
  obtain ⟨he1, he2, he3, he4⟩ := hce
  refine ⟨?_, ?_, ?_, ?_⟩
  · refine Or.inr (Or.inr ⟨?_, ?_, Or.inl rfl, rfl, rfl, rfl, rfl⟩)
    · rintro ⟨hc, -⟩
      exact absurd (show sPENDING = sCOMPLETED from hc) (by decide)
    · rintro ⟨hc, -⟩
      exact absurd (show sPENDING = sFAILED from hc) (by decide)
  · refine Or.inr (Or.inr ⟨?_, ?_, Or.inr rfl, he1, he2, he3, he4⟩)
    · rintro ⟨hc, -⟩
      exact absurd (show sPROCESSING = sCOMPLETED from hc) (by decide)
    · rintro ⟨hc, -⟩
      exact absurd (show sPROCESSING = sFAILED from hc) (by decide)
  · cases outcome with
    | ok r =>
      refine Or.inl ⟨⟨rfl, ?_, ?_, ?_, ?_⟩, ?_, ?_⟩
      · simp [finishJob]
      · simp [finishJob]
      · simp [finishJob]
      · simp [finishJob]
      · rintro ⟨hc, -⟩
        exact absurd (show sCOMPLETED = sFAILED from hc) (by decide)
      · rintro ⟨hc, -⟩
        rcases hc with hc | hc
        · exact absurd (show sCOMPLETED = sPENDING from hc) (by decide)
        · exact absurd (show sCOMPLETED = sPROCESSING from hc) (by decide)
    | error e =>
      refine Or.inr (Or.inl ⟨?_, ⟨rfl, ?_⟩, ?_⟩)
      · rintro ⟨hc, -⟩
        exact absurd (show sFAILED = sCOMPLETED from hc) (by decide)
      · simp [finishJob]
      · rintro ⟨hc, -⟩
        rcases hc with hc | hc
        · exact absurd (show sFAILED = sPENDING from hc) (by decide)
        · exact absurd (show sFAILED = sPROCESSING from hc) (by decide)
  · cases outcome with
    | ok r => exact Or.inl rfl
    | error e => exact Or.inr rfl

/-- C4.  When the outcome for the claimed job's URL is a failure, the pass
records FAILED plus the failure's message on that job; the worker loop is
a total function that keeps iterating, and a FAILED job is never selected
again — it stays in the store unchanged through every further iteration. -/
theorem workerFailure_recorded_never_retried
    (env : List Char → Except (List Char) AIResult) (store : List Job)
    (j : Job) (e : List Char) (hwf : wfStore store)
    (hfind : findPending store = some j)
    (henv : env j.url = Except.error e) :
    (finishJob (claimJob j) (Except.error e) ∈ processPendingJob env store) ∧
    ((finishJob (claimJob j) (Except.error e)).status = sFAILED) ∧
    ((finishJob (claimJob j) (Except.error e)).error_message = some e) ∧
    ((finishJob (claimJob j) (Except.error e)).id = j.id) ∧
    (∀ n, finishJob (claimJob j) (Except.error e) ∈
        workerRun env n (processPendingJob env store)) ∧
    (∀ x ∈ store, x.status = sFAILED → ∀ n, x ∈ workerRun env n store) := by
  have hmem : finishJob (claimJob j) (Except.error e) ∈ processPendingJob env store := by
    have := (selected_mem_pass env store j hfind).2
    rw [henv] at this
    exact this
  refine ⟨hmem, rfl, rfl, rfl, ?_, ?_⟩
  · intro n
    exact nonPending_mem_workerRun env n (processPendingJob env store)
      (wf_processPendingJob env store hwf) _ hmem (by intro h; exact absurd (show sFAILED = sPENDING from h) (by decide))
  · intro x hx hst n
    refine nonPending_mem_workerRun env n store hwf x hx ?_
    rw [hst]
    decide

/-- C6.  Over the two committed states of one processor pass, every job's
status moves only along PENDING → PROCESSING → {COMPLETED | FAILED}
(or stays put); the claimed job is PROCESSING in the intermediate state
and terminal in the final one (PROCESSING is never skipped); and a job in
a terminal status is never changed by any number of further iterations. -/
theorem statusTransitions_ordered
    (env : List Char → Except (List Char) AIResult) (store : List Job)
    (hwf : wfStore store) :
    (∀ x ∈ store, ∃ x1, x1 ∈ (processPass env store).1 ∧
       ∃ x2, x2 ∈ (processPass env store).2 ∧ x1.id = x.id ∧ x2.id = x.id ∧
         allowedStep x.status x1.status ∧ allowedStep x1.status x2.status) ∧
    (∀ x ∈ store, (x.status = sCOMPLETED ∨ x.status = sFAILED) →
       ∀ n, x ∈ workerRun env n store) ∧
    (∀ j, findPending store = some j →
       j.status = sPENDING ∧
       claimJob j ∈ (processPass env store).1 ∧
       (claimJob j).status = sPROCESSING ∧
       finishJob (claimJob j) (env j.url) ∈ (processPass env store).2 ∧
       ((finishJob (claimJob j) (env j.url)).status = sCOMPLETED ∨
        (finishJob (claimJob j) (env j.url)).status = sFAILED)) := by
  refine ⟨?_, ?_, ?_⟩
  · intro x hx
    cases hf : findPending store with
    | none =>
      refine ⟨x, ?_, x, ?_, rfl, rfl, Or.inl rfl, Or.inl rfl⟩ <;>
        simp [processPass, hf, hx]
    | some j =>
      by_cases hid : x.id = j.id
      · have hxj : x = j :=
          wf_id_inj store hwf x j hx (findPending_mem store j hf) hid
        subst hxj
        obtain ⟨h1, h2⟩ := selected_mem_pass env store x hf
        refine ⟨claimJob x, h1, finishJob (claimJob x) (env x.url), h2,
          rfl, finishJob_id _ _, ?_, ?_⟩
        · exact Or.inr (Or.inl ⟨findPending_status store x hf, rfl⟩)
        · cases ho : env x.url with
          | ok r => exact Or.inr (Or.inr ⟨rfl, Or.inl rfl⟩)
          | error e => exact Or.inr (Or.inr ⟨rfl, Or.inr rfl⟩)
      · have h1 : x ∈ updateJob store (claimJob j) :=
          mem_updateJob_other _ _ _ hx hid
        have h2 : x ∈ updateJob (updateJob store (claimJob j))
            (finishJob (claimJob j) (env j.url)) := by
          refine mem_updateJob_other _ _ _ h1 ?_
          rw [finishJob_id]
          exact hid
        refine ⟨x, ?_, x, ?_, rfl, rfl, Or.inl rfl, Or.inl rfl⟩ <;>
          simp [processPass, hf, h1, h2]
  · intro x hx hterm n
    refine nonPending_mem_workerRun env n store hwf x hx ?_
    rcases hterm with h | h <;> rw [h] <;> decide
  · intro j hf
    obtain ⟨h1, h2⟩ := selected_mem_pass env store j hf
    refine ⟨findPending_status store j hf, h1, rfl, h2, ?_⟩
    cases env j.url with
    | ok r => exact Or.inl rfl
    | error e => exact Or.inr rfl

/-- C5.  The claim step of `process_pending_job` is a separate SELECT then
UPDATE with no atomic guard: under the interleaving in which both worker
instances run their SELECT before either commits its UPDATE, both claim
the PENDING job with id 1 — the spec's mandated atomic claim contract is
violated by the code. -/
theorem doubleClaim_schedule :
    (runSched sys0 [true, false, true, false]).w1.claimed = some 1 ∧
    (runSched sys0 [true, false, true, false]).w2.claimed = some 1 ∧
    (runSched sys0 [true, false, true, false]).w1.pc = 2 ∧
    (runSched sys0 [true, false, true, false]).w2.pc = 2 := by decide

/-- C7.  A first (miss) request for a URL computes, returns the result
with the cache marker false and stores it; any later request for the same
URL is answered from the cache with identical content fields and the
marker true, leaves the cache unchanged, and does not depend on the
extraction/summarization pipeline at all (no recomputation). -/
theorem cacheHit_matches_first
    (pipeline : List Char → Except FetchErr MainDict)
    (c0 : List (List Char × AnalysisResponse)) (url : List Char) (d : MainDict)
    (hmiss : cacheLookup c0 url = none) (hok : pipeline url = Except.ok d) :
    analyzePaper pipeline c0 url =
      ((url, mkResp d false) :: c0, Except.ok (mkResp d false)) ∧
    (∀ pipeline2 : List Char → Except FetchErr MainDict,
       analyzePaper pipeline2 ((url, mkResp d false) :: c0) url =
         ((url, mkResp d false) :: c0, Except.ok (mkResp d true))) := by
  constructor
  · simp [analyzePaper, hmiss, hok]
  · intro pipeline2
    have hhit : cacheLookup ((url, mkResp d false) :: c0) url =
        some (mkResp d false) := by
      simp [cacheLookup, List.find?]
    simp only [analyzePaper, hhit]
    simp [mkResp]

/-- C10.  When extraction or summarization fails on a cache miss, the
failure propagates, the cache is left exactly as it was (no entry for the
failing URL), and a later request for the same URL with a succeeding
pipeline recomputes from scratch instead of replaying the failure. -/
theorem cacheUnchanged_on_failure
    (pipeline : List Char → Except FetchErr MainDict)
    (c0 : List (List Char × AnalysisResponse)) (url : List Char) (e : FetchErr)
    (hmiss : cacheLookup c0 url = none) (herr : pipeline url = Except.error e) :
    analyzePaper pipeline c0 url = (c0, Except.error e) ∧
    (∀ (p2 : List Char → Except FetchErr MainDict) (d : MainDict),
       p2 url = Except.ok d →
         analyzePaper p2 c0 url =
           ((url, mkResp d false) :: c0, Except.ok (mkResp d false))) := by
  constructor
  · simp [analyzePaper, hmiss, herr]
  · intro p2 d hok
    simp [analyzePaper, hmiss, hok]

/-- C9 (amended).  In the synchronous shape, `get_text_from_url` succeeds
only when the declared content type contains "application/pdf" and the
extracted text is non-empty after stripping; so the provider is never
reached with empty or non-PDF content there.  (The queued shape performs
neither check — see the counterexample.) -/
theorem mainGetText_checks_content (f : Fetched) (t : List Char)
    (h : mainGetText f = Except.ok t) :
    occursIn pdfCT f.contentType = true ∧ pyStrip t ≠ [] ∧
    f.okStatus = true ∧ f.extracted = Except.ok t := by
  rcases hok : f.okStatus with _ | _
  · simp [mainGetText, hok] at h
  rcases hct : occursIn pdfCT f.contentType with _ | _
  · simp [mainGetText, hok, hct] at h
  cases hex : f.extracted with
  | error e => simp [mainGetText, hok, hct, hex] at h
  | ok t' =>
    by_cases hstr : pyStrip t' = []
    · simp [mainGetText, hok, hct, hex, hstr] at h
    · simp [mainGetText, hok, hct, hex, hstr] at h
      subst h
      exact ⟨rfl, hstr, rfl, rfl⟩

/-- C9 (counterexample to the claim as stated).  The queued shape's
`get_text_from_url` (worker.py) performs no content-type check and no
emptiness check: on a response declaring text/html whose extraction
yields the empty string it succeeds, and the worker pipeline then calls
the provider with empty content. -/
theorem workerGetText_no_checks :
    workerGetText { okStatus := true, contentType := "text/html".toList,
                    extracted := Except.ok [] } = Except.ok [] ∧
    occursIn pdfCT "text/html".toList = false ∧
    pyStrip [] = [] ∧
    workerPipeline
      (fun _ => Except.ok { title := "t".toList, summary := "s".toList,
                            takeaways := [], methodology := "m".toList })
      { okStatus := true, contentType := "text/html".toList,
        extracted := Except.ok [] } =
      Except.ok { title := "t".toList, summary := "s".toList,
                  takeaways := [], methodology := "m".toList } :=
  ⟨rfl, by decide, rfl, rfl⟩

/-- C2.  For every well-formed reply containing all four marker pairs,
each of title (worker variant), summary and methodology is exactly the
whitespace-stripped text between the first occurrence of its marker pair,
and there is exactly one takeaway per item pair, in document order — in
both the worker's and `main.py`'s parser. -/
theorem parser_wellformed_extracts (pre t g1 s g2 m g3 i0 post : List Char)
    (items : List (List Char × List Char))
    (hpre : '<' ∉ pre) (ht : '<' ∉ t) (hg1 : '<' ∉ g1) (hs : '<' ∉ s)
    (hg2 : '<' ∉ g2) (hm : '<' ∉ m) (hg3 : '<' ∉ g3) (hi0 : '<' ∉ i0)
    (hpost : '<' ∉ post) (hitems : ∀ p ∈ items, '<' ∉ p.1 ∧ '<' ∉ p.2) :
    parseWorker (rendWorker pre t g1 s g2 m g3 i0 post items) =
      some { title := pyStrip t, summary := pyStrip s,
             takeaways := items.map (fun p => pyStrip p.1),
             methodology := pyStrip m } ∧
    parseMain (rendMain pre s g2 m g3 i0 post items) =
      some { summary := pyStrip s,
             takeaways := items.map (fun p => pyStrip p.1),
             methodology := pyStrip m } :=
  ⟨parseWorker_rend pre t g1 s g2 m g3 i0 post items hpre ht hg1 hs hg2 hm hg3
     hi0 hpost hitems,
   parseMain_rend pre s g2 m g3 i0 post items hpre hs hg2 hm hg3 hi0 hpost hitems⟩

theorem parser_wellformed_extracts_witness :
    parseWorker (rendWorker [] " T ".toList " ".toList "S".toList " ".toList
        "M".toList " ".toList " ".toList []
        [(" a ".toList, " ".toList), ("b".toList, [])]) =
      some { title := pyStrip " T ".toList, summary := pyStrip "S".toList,
             takeaways := [(" a ".toList, " ".toList), ("b".toList, ([] : List Char))].map
               (fun p => pyStrip p.1),
             methodology := pyStrip "M".toList } ∧
    parseMain (rendMain [] "S".toList " ".toList "M".toList " ".toList
        " ".toList [] [(" a ".toList, " ".toList), ("b".toList, [])]) =
      some { summary := pyStrip "S".toList,
             takeaways := [(" a ".toList, " ".toList), ("b".toList, ([] : List Char))].map
               (fun p => pyStrip p.1),
             methodology := pyStrip "M".toList } :=
  parser_wellformed_extracts [] " T ".toList " ".toList "S".toList " ".toList
    "M".toList " ".toList " ".toList []
    [(" a ".toList, " ".toList), ("b".toList, [])]
    (by decide) (by decide) (by decide) (by decide) (by decide) (by decide)
    (by decide) (by decide) (by decide) (by decide)

/-- C3 (amended).  Each parser returns nothing exactly when one of its
opening markers is absent from the reply; a missing closing marker or
missing item markers do not make it fail (see the counterexample), and no
partial result is ever produced — the result is all-or-nothing. -/
theorem parser_none_iff_missing_open (msg : List Char) :
    (parseWorker msg = none ↔
      (occursIn oTitle msg = false ∨ occursIn oSum msg = false ∨
       occursIn oMeth msg = false ∨ occursIn oTake msg = false)) ∧
    (parseMain msg = none ↔
      (occursIn oSum msg = false ∨ occursIn oMeth msg = false ∨
       occursIn oTake msg = false)) :=
  ⟨parseWorker_none_iff msg, parseMain_none_iff msg⟩

set_option maxRecDepth 8192 in
/-- C3 (counterexample to the claim as stated): a reply with all four
top-level marker pairs but no `<item>` marker at all is parsed
successfully (with an empty takeaways list) instead of failing. -/
theorem parser_succeeds_without_item :
    occursIn oItem "<title>T</title><summary>S</summary><methodology>M</methodology><takeaways>x</takeaways>".toList = false ∧
    parseWorker "<title>T</title><summary>S</summary><methodology>M</methodology><takeaways>x</takeaways>".toList =
      some { title := "T".toList, summary := "S".toList, takeaways := [],
             methodology := "M".toList } := by
  constructor
  · decide
  · decide

/-- C8 (amended).  A successful parse of a well-formed reply yields one
takeaway per item pair actually present in the reply — the count is not
forced to the four the prompt requests. -/
theorem parser_takeaways_count (pre t g1 s g2 m g3 i0 post : List Char)
    (items : List (List Char × List Char))
    (hpre : '<' ∉ pre) (ht : '<' ∉ t) (hg1 : '<' ∉ g1) (hs : '<' ∉ s)
    (hg2 : '<' ∉ g2) (hm : '<' ∉ m) (hg3 : '<' ∉ g3) (hi0 : '<' ∉ i0)
    (hpost : '<' ∉ post) (hitems : ∀ p ∈ items, '<' ∉ p.1 ∧ '<' ∉ p.2) :
    (parseWorker (rendWorker pre t g1 s g2 m g3 i0 post items)).map
      (fun r => r.takeaways.length) = some items.length := by
  rw [parseWorker_rend pre t g1 s g2 m g3 i0 post items hpre ht hg1 hs hg2 hm
    hg3 hi0 hpost hitems]
  simp

theorem parser_takeaways_count_witness :
    (parseWorker (rendWorker [] "T".toList [] "S".toList [] "M".toList [] []
        [] [("a".toList, []), ("b".toList, [])])).map
      (fun r => r.takeaways.length) = some 2 :=
  parser_takeaways_count [] "T".toList [] "S".toList [] "M".toList [] [] []
    [("a".toList, []), ("b".toList, [])]
    (by decide) (by decide) (by decide) (by decide) (by decide) (by decide)
    (by decide) (by decide) (by decide) (by decide)

set_option maxRecDepth 8192 in
/-- C8 (counterexample to the claim as stated): a reply carrying three
item pairs parses successfully into three takeaways, not the four the
prompt template requests. -/
theorem parser_item_count_not_four :
    (parseWorker "<title>T</title><summary>S</summary><methodology>M</methodology><takeaways><item>a</item><item>b</item><item>c</item></takeaways>".toList).map
      (fun r => r.takeaways.length) = some 3 := by decide

theorem jobInvariant_lifecycle_witness :
    exactlyOneInv (submitJob 2 "v".toList) ∧
    exactlyOneInv (claimJob exJob) ∧
    exactlyOneInv (finishJob (claimJob exJob) (Except.ok exAI)) ∧
    ((finishJob (claimJob exJob) (Except.ok exAI)).status = sCOMPLETED ∨
     (finishJob (claimJob exJob) (Except.ok exAI)).status = sFAILED) :=
  jobInvariant_lifecycle 2 "v".toList exJob (Except.ok exAI)
    (Or.inr (Or.inr ⟨fun h => absurd h.1 (by decide),
      fun h => absurd h.1 (by decide), Or.inl rfl, rfl, rfl, rfl, rfl⟩))
    (by decide)

theorem workerFailure_recorded_witness :
    (finishJob (claimJob exJob) (Except.error "boom".toList) ∈
       processPendingJob envErr [exJob]) ∧
    ((finishJob (claimJob exJob) (Except.error "boom".toList)).status = sFAILED) ∧
    ((finishJob (claimJob exJob) (Except.error "boom".toList)).error_message =
       some "boom".toList) ∧
    (finishJob (claimJob exJob) (Except.error "boom".toList) ∈
       workerRun envErr 3 (processPendingJob envErr [exJob])) := by
  have h := workerFailure_recorded_never_retried envErr [exJob] exJob
    "boom".toList (by unfold wfStore; decide) (by decide) rfl
  exact ⟨h.1, h.2.1, h.2.2.1, h.2.2.2.2.1 3⟩

theorem statusTransitions_ordered_witness :
    exJob.status = sPENDING ∧
    claimJob exJob ∈ (processPass envOk [exJob]).1 ∧
    (claimJob exJob).status = sPROCESSING ∧
    finishJob (claimJob exJob) (envOk exJob.url) ∈ (processPass envOk [exJob]).2 ∧
    ((finishJob (claimJob exJob) (envOk exJob.url)).status = sCOMPLETED ∨
     (finishJob (claimJob exJob) (envOk exJob.url)).status = sFAILED) := by
  have h := statusTransitions_ordered envOk [exJob] (by unfold wfStore; decide)
  exact h.2.2 exJob (by decide)

theorem cacheHit_matches_first_witness :
    analyzePaper pipeOk [] "u".toList =
      ([("u".toList, mkResp exDict false)], Except.ok (mkResp exDict false)) ∧
    analyzePaper pipeErr [("u".toList, mkResp exDict false)] "u".toList =
      ([("u".toList, mkResp exDict false)], Except.ok (mkResp exDict true)) := by
  have h := cacheHit_matches_first pipeOk [] "u".toList exDict rfl rfl
  exact ⟨h.1, h.2 pipeErr⟩

theorem mainGetText_checks_content_witness :
    mainGetText exFetched = Except.ok "x".toList ∧
    occursIn pdfCT "application/pdf".toList = true ∧
    pyStrip "x".toList ≠ [] := by
  refine ⟨rfl, ?_, ?_⟩
  · exact (mainGetText_checks_content exFetched "x".toList rfl).1
  · exact (mainGetText_checks_content exFetched "x".toList rfl).2.1

theorem cacheUnchanged_on_failure_witness :
    analyzePaper pipeErr [] "u".toList =
      ([], Except.error FetchErr.downloadFailed) ∧
    analyzePaper pipeOk [] "u".toList =
      ([("u".toList, mkResp exDict false)], Except.ok (mkResp exDict false)) := by
  have h := cacheUnchanged_on_failure pipeErr [] "u".toList
    FetchErr.downloadFailed rfl rfl
  exact ⟨h.1, h.2 pipeOk exDict rfl⟩
